import Mathlib

set_option maxRecDepth 8000

/-!
Shallow embedding of the LISP2 mark-compact collector, in its two variants:
the fixed-heap variant (`lisp2.c`) and the reallocating variant (the second
source file).  Pointers into the heap are modeled as cell indices from the
heap base: `some i` stands for the address `heap + i * objSize`, while
`none` stands for `NULL` or for an address that lies outside the heap.
This index representation makes the reallocating variant's base-relative
rebasing `vm->heap + (p - oldHeap)` the identity, which is exactly the
arithmetic the C code performs.  `realloc` is modeled as preserving the
heap contents in place (the byte contents of every cell are unchanged and
only the capacity bookkeeping moves), which matches the C behaviour
whenever the underlying allocator keeps the block in place; reads of
memory that C leaves uninitialized yield the fixed cell `junkObj`.
-/

namespace Lisp2

/-- Object type tag: `OBJ_INT` or `OBJ_PAIR`. -/
inductive ObjectType where
  | OBJ_INT
  | OBJ_PAIR
deriving DecidableEq, Repr

/-- Cell size in bytes, `sizeof(Object)` on an LP64 build:
4 (type) + 4 (padding) + 8 (moveTo) + 16 (union of int and two pointers). -/
def objSize : Nat := 32

/-- Root stack capacity, shared by both variants. -/
def STACK_MAX : Nat := 256

/-- Heap capacity in bytes of the fixed-heap variant. -/
def HEAP_SIZE : Nat := 1024 * 1024

/-- Minimum heap size in bytes of the reallocating variant. -/
def HEAP_MIN : Nat := 16

/-- One heap cell.  The C union overlays `value` with `head`/`tail`; the
code never reads the member that does not belong to the cell's current
type tag, so the model keeps the three payload fields side by side. -/
structure Obj where
  ty : ObjectType
  moveTo : Option Nat
  value : Int
  head : Option Nat
  tail : Option Nat
deriving DecidableEq, Repr

/-- The contents of a cell C never initialized (undefined contents in C). -/
def junkObj : Obj := ⟨.OBJ_INT, none, 0, none, none⟩

/-- Read the cell at index `i`; a read beyond the initialized heap yields
junk. -/
def memGet (mem : List Obj) (i : Nat) : Obj := mem.getD i junkObj

/-- Write the cell at index `i`, padding with uninitialized cells if the
write lies beyond the initialized region. -/
def writeCell (mem : List Obj) (i : Nat) (o : Obj) : List Obj :=
  if i < mem.length then mem.set i o
  else mem ++ List.replicate (i - mem.length) junkObj ++ [o]

/-- The machine state of either variant.  `stack` is bottom-first (the
last element is the top of the root stack), `mem` holds the heap cells
starting at the base, `nextIdx` is `(next - heap) / objSize` and
`capacity` is `end - heap` in bytes (always `HEAP_SIZE` in the fixed
variant, which has no `end` field). -/
structure VM where
  stack : List (Option Nat)
  mem : List Obj
  nextIdx : Nat
  capacity : Nat
deriving DecidableEq, Repr

/-- Number of cells whose forwarding slot is `NULL`; used as recursion
fuel for `mark`. -/
def unmarkedCount (mem : List Obj) : Nat :=
  mem.countP (fun o => o.moveTo.isNone)

/-- `mark(Object*)`, identical in both variants.  The C function recurses
on the object graph; the recursion is modeled with explicit fuel, and
`unmarkedCount mem + 1` units of fuel always suffice (this is proved
below, settling the termination half of the mark-phase claim).  A `none`
argument or an index beyond the initialized heap corresponds to a
dereference of a junk pointer in C; the model leaves the heap unchanged
in that case. -/
def markF : Nat → List Obj → Option Nat → List Obj
  | 0, mem, _ => mem
  | _ + 1, mem, none => mem
  | fuel + 1, mem, some i =>
    match mem[i]? with
    | none => mem
    | some o =>
      if o.moveTo.isSome then mem
      else
        let m1 := mem.set i { o with moveTo := some i }
        match o.ty with
        | .OBJ_INT => m1
        | .OBJ_PAIR => markF fuel (markF fuel m1 o.head) o.tail

/-- `mark` with the always-sufficient fuel. -/
def mark (mem : List Obj) (r : Option Nat) : List Obj :=
  markF (unmarkedCount mem + 1) mem r

/-- `markAll`: mark from every root, bottom of the stack first. -/
def markAll (mem : List Obj) (roots : List (Option Nat)) : List Obj :=
  roots.foldl mark mem

/-- `calculateNewLocations`: scan the cells at indices `[0, n)` (with
`n` the frontier in cells); every cell with a non-NULL forwarding slot
receives the running destination cursor and advances it.  Returns the
updated heap and the cursor's final value in cells, so the C function's
byte results are `objSize *` these.  Identical in both variants. -/
def calculateNewLocations (mem : List Obj) (n : Nat) : List Obj × Nat :=
  (List.range n).foldl
    (fun acc i =>
      let o := memGet acc.1 i
      if o.moveTo.isSome then
        (acc.1.set i { o with moveTo := some acc.2 }, acc.2 + 1)
      else acc)
    (mem, 0)

/-- Dereference a reference and read the target's forwarding slot.  In
the fixed variant this is `p->moveTo`; in the reallocating variant it is
`vm->heap + (p->moveTo - oldHeap)` computed through the old-heap copy of
the cell, which on indices is the same read.  A `NULL` forwarding slot
makes the C expression of the reallocating variant a non-heap address,
and the fixed variant stores `NULL` itself: both are `none`. -/
def refMoveTo (mem : List Obj) (p : Option Nat) : Option Nat :=
  match p with
  | some j => (memGet mem j).moveTo
  | none => none

/-- The heap walk of `updateAllObjectPointers`: for every cell below the
frontier `n` whose forwarding slot is non-NULL and whose type is
`OBJ_PAIR`, replace `head` and `tail` by their targets' forwarding
addresses. -/
def updateHeapFields (mem : List Obj) (n : Nat) : List Obj :=
  (List.range n).foldl
    (fun m i =>
      let o := memGet m i
      if o.moveTo.isSome then
        match o.ty with
        | .OBJ_INT => m
        | .OBJ_PAIR =>
            m.set i { o with head := refMoveTo m o.head, tail := refMoveTo m o.tail }
      else m)
    mem

/-- The stack walk of `updateAllObjectPointers`: every root is replaced
by its target's forwarding address. -/
def fixStack (mem : List Obj) (stack : List (Option Nat)) : List (Option Nat) :=
  stack.map (refMoveTo mem)

/-- `compact`: for every cell below the frontier `n` whose forwarding
slot is non-NULL, move the cell to its forwarding address and clear the
forwarding slot at the destination. -/
def compactPhase (mem : List Obj) (n : Nat) : List Obj :=
  (List.range n).foldl
    (fun m i =>
      let o := memGet m i
      match o.moveTo with
      | some d => m.set d { o with moveTo := none }
      | none => m)
    mem

/-- `gc` of the fixed-heap variant: mark, plan, update pointers (stack
first, then the heap walk), compact — all three walks bounded by the old
frontier — and only then move the frontier down to the planned live
size. -/
def fgc (vm : VM) : VM :=
  let m1 := markAll vm.mem vm.stack
  let pr := calculateNewLocations m1 vm.nextIdx
  let stack' := fixStack pr.1 vm.stack
  let m3 := updateHeapFields pr.1 vm.nextIdx
  let m4 := compactPhase m3 vm.nextIdx
  { stack := stack', mem := m4, nextIdx := pr.2, capacity := vm.capacity }

/-- `gc` of the reallocating variant: mark, plan, grow or shrink the
heap to `liveSize * HEAP_HEADROOM + additionalSize` (at least
`HEAP_MIN`), then set `vm->next = vm->heap + liveSize` and only
afterwards run the pointer-update walk (heap first, then the stack) and
the compaction walk, both of which iterate while the cursor is below
`vm->next` — that is, below the new frontier, not the old one.
`liveSize` is a multiple of `objSize`, so the C double multiplication by
1.5 is exact and equals `* 3 / 2`. -/
def rgc (vm : VM) (additionalSize : Nat) : VM :=
  let m1 := markAll vm.mem vm.stack
  let pr := calculateNewLocations m1 vm.nextIdx
  let liveBytes := objSize * pr.2
  let heapSize0 := liveBytes * 3 / 2 + additionalSize
  let heapSize := if heapSize0 < HEAP_MIN then HEAP_MIN else heapSize0
  let nextIdx' := pr.2
  let m3 := updateHeapFields pr.1 nextIdx'
  let stack' := fixStack m3 vm.stack
  let m4 := compactPhase m3 nextIdx'
  { stack := stack', mem := m4, nextIdx := nextIdx', capacity := heapSize }

/-- The result of `newObject`: the reference to the fresh cell, the new
state, and whether the allocation invoked the collector. -/
structure AllocOut where
  ref : Nat
  vm : VM
  gcRan : Bool
deriving DecidableEq, Repr

/-- Place a fresh cell at the frontier: only `type` and `moveTo` are
written, the payload keeps whatever bytes the cell held. -/
def allocAt (vm : VM) (ty : ObjectType) (ran : Bool) : AllocOut :=
  let o := { memGet vm.mem vm.nextIdx with ty := ty, moveTo := none }
  ⟨vm.nextIdx,
   { vm with mem := writeCell vm.mem vm.nextIdx o, nextIdx := vm.nextIdx + 1 },
   ran⟩

/-- `newObject` of the reallocating variant: collect (asking for
`sizeof(Object)` extra bytes) when the next cell would overrun `end`,
then allocate unconditionally — this variant has no out-of-memory
path. -/
def rNewObject (vm : VM) (ty : ObjectType) : AllocOut :=
  if objSize * vm.nextIdx + objSize > vm.capacity then
    allocAt (rgc vm objSize) ty true
  else
    allocAt vm ty false

/-- `newObject` of the fixed-heap variant: collect when the next cell
would overrun the heap, and fail (`none`, the C code prints "Out of
memory" and exits) if there is still no room afterwards. -/
def fNewObject (vm : VM) (ty : ObjectType) : Option AllocOut :=
  if objSize * vm.nextIdx + objSize > HEAP_SIZE then
    let vm' := fgc vm
    if objSize * vm'.nextIdx + objSize > HEAP_SIZE then none
    else some (allocAt vm' ty true)
  else some (allocAt vm ty false)

/-- `push`, identical in both variants: append on top, abort (`none`,
"Stack overflow") when the stack is full. -/
def push (vm : VM) (p : Option Nat) : Option VM :=
  if vm.stack.length < STACK_MAX then some { vm with stack := vm.stack ++ [p] }
  else none

/-- `pop` of the reallocating variant: abort (`none`, the C assert
prints "Stack underflow!" and exits) on an empty stack, otherwise remove
and return the top entry. -/
def rpop (vm : VM) : Option (Option Nat × VM) :=
  if vm.stack.length > 0 then
    some (vm.stack.getLastD none, { vm with stack := vm.stack.dropLast })
  else none

/-- `pop` of the fixed-heap variant: no emptiness check at all.  On an
empty stack the C code reads `stack[-1]` and drives `stackSize` to -1
without reporting anything; the model returns a junk reference and
leaves the stack empty.  On a non-empty stack it removes and returns the
top entry, exactly like the other variant. -/
def fpop (vm : VM) : Option Nat × VM :=
  (vm.stack.getLastD none, { vm with stack := vm.stack.dropLast })

/-- `pushInt` of the reallocating variant: allocate an `OBJ_INT`, store
the value, push the reference. -/
def rpushInt (vm : VM) (v : Int) : Option VM :=
  let a := rNewObject vm .OBJ_INT
  let vm1 :=
    { a.vm with mem := writeCell a.vm.mem a.ref { memGet a.vm.mem a.ref with value := v } }
  push vm1 (some a.ref)

/-- `pushPair` of the reallocating variant: allocate the pair first
(so that a collection triggered by the allocation still sees the two
children on the root stack), then pop the tail, pop the head, store
them, and push the pair. -/
def rpushPair (vm : VM) : Option VM := do
  let a := rNewObject vm .OBJ_PAIR
  let (t, vm1) ← rpop a.vm
  let (h, vm2) ← rpop vm1
  let vm3 :=
    { vm2 with mem := writeCell vm2.mem a.ref { memGet vm2.mem a.ref with tail := t, head := h } }
  push vm3 (some a.ref)

/-- `newVM` of the reallocating variant: empty stack, uninitialized heap
of `HEAP_MIN` bytes. -/
def rNewVM : VM := ⟨[], [], 0, HEAP_MIN⟩

/-- `newVM` of the fixed-heap variant: empty stack, uninitialized heap
of `HEAP_SIZE` bytes. -/
def fNewVM : VM := ⟨[], [], 0, HEAP_SIZE⟩

/-- A mutator operation of the public interface. -/
inductive Op where
  | pushInt (v : Int)
  | pushPair
  | pop
deriving DecidableEq, Repr

/-- One mutator step of the reallocating variant (`none` means the C
program aborted). -/
def rstep (vm : VM) : Op → Option VM
  | .pushInt v => rpushInt vm v
  | .pushPair => rpushPair vm
  | .pop => (rpop vm).map (·.2)

/-- Run a mutator program of the reallocating variant from a fresh VM. -/
def rrun (ops : List Op) : Option VM :=
  ops.foldlM rstep rNewVM

/-- Successor references of the cell at `i` for reachability: the two
fields of a pair, nothing for an int. -/
def succs (mem : List Obj) (i : Nat) : List Nat :=
  let o := memGet mem i
  match o.ty with
  | .OBJ_INT => []
  | .OBJ_PAIR => o.head.toList ++ o.tail.toList

/-- One expansion step of the reachable set. -/
def reachStep (mem : List Obj) (s : List Nat) : List Nat :=
  (s.foldl (fun acc i => acc ++ succs mem i) s).dedup

/-- Iterate a function `n` times. -/
def iterRep {α : Type} (f : α → α) : Nat → α → α
  | 0, a => a
  | n + 1, a => iterRep f n (f a)

/-- The set (as a deduplicated list) of cell indices reachable from the
root stack; `mem.length + 1` expansion steps reach the closure for every
state whose references stay inside the heap. -/
def reachList (vm : VM) : List Nat :=
  iterRep (reachStep vm.mem) (vm.mem.length + 1) (vm.stack.filterMap id).dedup

/-- The number of distinct cells reachable from the root stack. -/
def reachableCount (vm : VM) : Nat := (reachList vm).length

/-- Number of live cells among the first `i` (used to describe the
destinations that `calculateNewLocations` assigns). -/
def liveBefore (mem : List Obj) (i : Nat) : Nat :=
  (List.range i).countP (fun j => (memGet mem j).moveTo.isSome)

/-- The cell at `i` exists and its forwarding slot is `NULL`. -/
def unmarkedAt (mem : List Obj) (i : Nat) : Prop :=
  ∃ o, mem[i]? = some o ∧ o.moveTo = none

/-- The cell at `i` exists and its forwarding slot is non-`NULL`. -/
def markedAt (mem : List Obj) (i : Nat) : Prop :=
  ∃ o, mem[i]? = some o ∧ o.moveTo.isSome

/-- The cell at `i` is a pair one of whose fields references cell `j`. -/
def Edge (mem : List Obj) (i j : Nat) : Prop :=
  ∃ o, mem[i]? = some o ∧ o.ty = .OBJ_PAIR ∧ (o.head = some j ∨ o.tail = some j)

/-- Reachability from cell `a` along pair fields, every visited cell
(including `a` and the target) being unmarked.  This is the set of cells
a single call `mark(a)` newly marks. -/
inductive ReachU (mem : List Obj) : Nat → Nat → Prop where
  | refl (i : Nat) : unmarkedAt mem i → ReachU mem i i
  | step {a j k : Nat} : ReachU mem a j → Edge mem j k → unmarkedAt mem k → ReachU mem a k

/-- Plain reachability from the root stack: some root references `a` and
cell `j` is reachable from `a` along pair fields. -/
def RootReach (mem : List Obj) (roots : List (Option Nat)) (j : Nat) : Prop :=
  ∃ a, some a ∈ roots ∧ Relation.ReflTransGen (Edge mem) a j

/-- Heap well-formedness for the mark phase: every pair's fields
reference cells of the heap. -/
def FieldsWF (mem : List Obj) : Prop :=
  ∀ o ∈ mem, o.ty = .OBJ_PAIR →
    o.head.getD mem.length < mem.length ∧ o.tail.getD mem.length < mem.length

/-- Root well-formedness for the mark phase: every root references a
cell of the heap. -/
def RootsWF (mem : List Obj) (roots : List (Option Nat)) : Prop :=
  ∀ p ∈ roots, p.getD mem.length < mem.length

/-- Heaps related by marking: every cell is unchanged or had its `NULL`
forwarding slot replaced by its own address. -/
def MarkExt (m m' : List Obj) : Prop :=
  ∀ j, m'[j]? = m[j]? ∨
    ∃ o : Obj, m[j]? = some o ∧ o.moveTo = none ∧ m'[j]? = some { o with moveTo := some j }

/-- The mutator program whose final collection miscounts the live cells
(claim C1): the collection triggered inside the eleventh `pushInt` skips
the live cell just past the new frontier and leaves a stale forwarding
slot inside the live region, which the final collection then counts as
live even though the two `pop`s have made it unreachable. -/
def c1ops : List Op :=
  [.pushInt 10, .pushInt 11, .pushInt 12, .pushInt 13, .pushInt 1, .pushInt 2,
   .pushPair, .pushInt 3, .pop, .pushInt 4, .pushInt 5,
   .pushInt 6, .pushInt 7, .pop, .pop]

/-- The mutator program for claim C2: a dead pair cell is left untouched
inside the live region by the final collection, and the cell its `head`
field references changes type tag from `OBJ_INT` to `OBJ_PAIR` when a
relocated pair is compacted onto it. -/
def c2ops : List Op :=
  ((List.range 21).map (fun i => Op.pushInt (Int.ofNat i))) ++
  [.pushInt 100, .pushInt 101, .pushPair, .pushInt 102, .pushInt 103, .pushPair,
   .pop, .pop,
   .pushInt 200, .pushInt 201, .pushInt 202, .pushPair,
   .pushInt 300, .pushInt 301, .pushInt 302, .pushInt 303, .pushInt 304, .pushInt 305]

/-- The mutator program for claim C3: the final collection's slide phase
copies a live cell downwards but never overwrites its source slot
(whose planned occupant lies past the mistaken frontier), leaving a
surviving cell whose forwarding slot is not `NULL`. -/
def c3ops : List Op :=
  [.pushInt 10, .pushInt 11, .pushInt 12, .pushInt 13, .pushInt 1, .pushInt 2,
   .pushPair, .pushInt 3, .pop, .pushInt 4, .pushInt 5]

/-- The mutator program for claim C6: the first collection strands the
three reachable cells beyond the mistaken frontier, so the live region
consists of three stale dead cells; the second collection, run with no
mutator activity in between, then keeps only the one stale cell the
rebased root happens to reference and relocates it. -/
def c6ops : List Op :=
  [.pushInt 1, .pushInt 2, .pushInt 3, .pushInt 4, .pushInt 5, .pushInt 6,
   .pushInt 7, .pushInt 8,
   .pop, .pop, .pop, .pop, .pop, .pop, .pop, .pop,
   .pushInt 20, .pushInt 21, .pushPair]

/-! ## Theorems -/

/-- Reading a cell after writing one. -/
theorem memGet_set (m : List Obj) (i j : Nat) (a : Obj) :
    memGet (m.set i a) j = if i = j ∧ i < m.length then a else memGet m j := by
  unfold memGet
  rw [List.getD_eq_getElem?_getD, List.getD_eq_getElem?_getD, List.getElem?_set]
  by_cases h1 : i = j
  · subst h1
    by_cases h2 : i < m.length
    · simp [h2]
    · simp [h2, List.getElem?_eq_none (Nat.le_of_not_lt h2)]
  · simp [h1]

/-- Reading past the initialized region yields junk. -/
theorem memGet_junk (m : List Obj) (i : Nat) (h : m.length ≤ i) : memGet m i = junkObj := by
  unfold memGet
  rw [List.getD_eq_getElem?_getD, List.getElem?_eq_none h]
  rfl

/-- A cell with a non-NULL forwarding slot lies inside the initialized
region. -/
theorem lt_of_moveTo_isSome (m : List Obj) (i : Nat)
    (h : (memGet m i).moveTo.isSome) : i < m.length := by
  by_contra hc
  rw [memGet_junk m i (by omega)] at h
  simp [junkObj] at h

/-- Unfolding `liveBefore` one step. -/
theorem liveBefore_succ (mem : List Obj) (n : Nat) :
    liveBefore mem (n + 1) =
      liveBefore mem n + if (memGet mem n).moveTo.isSome then 1 else 0 := by
  unfold liveBefore
  rw [List.range_succ, List.countP_append, List.countP_singleton]

/-- The number of live cells below `i` is at most `i`. -/
theorem liveBefore_le (mem : List Obj) (i : Nat) : liveBefore mem i ≤ i :=
  le_trans (List.countP_le_length _) (le_of_eq (List.length_range i))

/-- `liveBefore` is monotone. -/
theorem liveBefore_mono (mem : List Obj) {a b : Nat} (h : a ≤ b) :
    liveBefore mem a ≤ liveBefore mem b := by
  induction b, h using Nat.le_induction with
  | base => exact le_rfl
  | succ n hmn ih => rw [liveBefore_succ]; split <;> omega

/-- `liveBefore` grows strictly past a live cell. -/
theorem liveBefore_strict (mem : List Obj) {j i : Nat} (hj : j < i)
    (hs : (memGet mem j).moveTo.isSome) :
    liveBefore mem j < liveBefore mem i := by
  have h1 : liveBefore mem (j + 1) = liveBefore mem j + 1 := by
    rw [liveBefore_succ, if_pos hs]
  have h2 := liveBefore_mono mem (show j + 1 ≤ i from hj)
  omega

/-- What `calculateNewLocations` computes: the returned cursor counts
the live cells below the frontier, and every live cell below the
frontier has its forwarding slot overwritten with the count of live
cells below itself (its destination), all other cells being untouched. -/
theorem calcNewLocations_spec (mem : List Obj) (n : Nat) :
    (calculateNewLocations mem n).2 = liveBefore mem n ∧
    (calculateNewLocations mem n).1.length = mem.length ∧
    ∀ i, memGet (calculateNewLocations mem n).1 i =
      if i < n ∧ (memGet mem i).moveTo.isSome
      then { memGet mem i with moveTo := some (liveBefore mem i) }
      else memGet mem i := by
  induction n with
  | zero =>
    refine ⟨rfl, rfl, fun i => ?_⟩
    simp [calculateNewLocations]
  | succ n ih =>
    obtain ⟨ih2, ihlen, ihget⟩ := ih
    have hstep : calculateNewLocations mem (n + 1) =
        (if (memGet (calculateNewLocations mem n).1 n).moveTo.isSome then
           ((calculateNewLocations mem n).1.set n
              { memGet (calculateNewLocations mem n).1 n with
                  moveTo := some (calculateNewLocations mem n).2 },
            (calculateNewLocations mem n).2 + 1)
         else calculateNewLocations mem n) := by
      conv_lhs => rw [calculateNewLocations, List.range_succ, List.foldl_append,
        List.foldl_cons, List.foldl_nil]
      rfl
    have hread : memGet (calculateNewLocations mem n).1 n = memGet mem n := by
      rw [ihget n]; simp
    by_cases hs : (memGet mem n).moveTo.isSome
    · have hn : n < mem.length := lt_of_moveTo_isSome mem n hs
      rw [hstep, hread, if_pos hs]
      refine ⟨?_, ?_, fun i => ?_⟩
      · dsimp only; rw [ih2, liveBefore_succ, if_pos hs]
      · dsimp only; rw [List.length_set, ihlen]
      · dsimp only
        rw [memGet_set, ihlen]
        by_cases hij : n = i
        · subst hij
          rw [if_pos ⟨rfl, hn⟩, if_pos ⟨Nat.lt_succ_self n, hs⟩, ih2]
        · rw [if_neg (by tauto), ihget i]
          by_cases hi : i < n ∧ (memGet mem i).moveTo.isSome
          · rw [if_pos hi, if_pos ⟨by omega, hi.2⟩]
          · rw [if_neg hi, if_neg ?_]
            intro hcon
            have : i < n := by
              rcases Nat.lt_succ_iff_lt_or_eq.mp hcon.1 with h | h
              · exact h
              · exact absurd h.symm hij
            exact hi ⟨this, hcon.2⟩
    · rw [hstep, hread, if_neg hs]
      refine ⟨?_, ihlen, fun i => ?_⟩
      · rw [ih2, liveBefore_succ, if_neg hs]
        omega
      · rw [ihget i]
        by_cases hi : i < n ∧ (memGet mem i).moveTo.isSome
        · rw [if_pos hi, if_pos ⟨by omega, hi.2⟩]
        · rw [if_neg hi, if_neg ?_]
          intro hcon
          have hine : i ≠ n := by
            intro he; rw [he] at hcon; exact hs hcon.2
          have : i < n := by
            rcases Nat.lt_succ_iff_lt_or_eq.mp hcon.1 with h | h
            · exact h
            · exact absurd h hine
          exact hi ⟨this, hcon.2⟩

/-- What the heap walk of `updateAllObjectPointers` does to the cells it
does not visit, and to every forwarding slot: cells at or past the
frontier `n` are untouched, and no forwarding slot changes. -/
theorem updateHeapFields_spec (m : List Obj) (n : Nat) :
    (updateHeapFields m n).length = m.length ∧
    (∀ i, n ≤ i → memGet (updateHeapFields m n) i = memGet m i) ∧
    (∀ i, (memGet (updateHeapFields m n) i).moveTo = (memGet m i).moveTo) := by
  induction n with
  | zero => exact ⟨rfl, fun i _ => rfl, fun i => rfl⟩
  | succ n ih =>
    obtain ⟨ihlen, ihhigh, ihmv⟩ := ih
    have hstep : updateHeapFields m (n + 1) =
        (if (memGet (updateHeapFields m n) n).moveTo.isSome then
           match (memGet (updateHeapFields m n) n).ty with
           | .OBJ_INT => updateHeapFields m n
           | .OBJ_PAIR =>
               (updateHeapFields m n).set n
                 { memGet (updateHeapFields m n) n with
                     head := refMoveTo (updateHeapFields m n)
                       (memGet (updateHeapFields m n) n).head,
                     tail := refMoveTo (updateHeapFields m n)
                       (memGet (updateHeapFields m n) n).tail }
         else updateHeapFields m n) := by
      conv_lhs => rw [updateHeapFields, List.range_succ, List.foldl_append,
        List.foldl_cons, List.foldl_nil]
      rfl
    rw [hstep]
    by_cases hs : (memGet (updateHeapFields m n) n).moveTo.isSome
    · rw [if_pos hs]
      cases hty : (memGet (updateHeapFields m n) n).ty
      · exact ⟨ihlen, fun i hi => ihhigh i (by omega), ihmv⟩
      · refine ⟨?_, fun i hi => ?_, fun i => ?_⟩
        · rw [List.length_set, ihlen]
        · rw [memGet_set, if_neg (by omega)]
          exact ihhigh i (by omega)
        · rw [memGet_set]
          by_cases hni : n = i ∧ n < (updateHeapFields m n).length
          · rw [if_pos hni]
            dsimp only
            rw [← hni.1, ihmv n]
          · rw [if_neg hni]
            exact ihmv i
    · rw [if_neg hs]
      exact ⟨ihlen, fun i hi => ihhigh i (by omega), ihmv⟩

/-- A slot that is nobody's destination is untouched by `compact`,
provided every destination of a visited cell lies at or below its
source (which `calculateNewLocations` guarantees). -/
theorem compactPhase_untouched (m : List Obj) (k : Nat)
    (hmono : ∀ j, j < k → ∀ dj, (memGet m j).moveTo = some dj → dj ≤ j) :
    ∀ s, (∀ j, j < k → (memGet m j).moveTo ≠ some s) →
      memGet (compactPhase m k) s = memGet m s := by
  induction k with
  | zero => exact fun s _ => rfl
  | succ k ih =>
    have ih' := ih (fun j hj => hmono j (by omega))
    have hstep : compactPhase m (k + 1) =
        (match (memGet (compactPhase m k) k).moveTo with
         | some dd =>
             (compactPhase m k).set dd { memGet (compactPhase m k) k with moveTo := none }
         | none => compactPhase m k) := by
      conv_lhs => rw [compactPhase, List.range_succ, List.foldl_append,
        List.foldl_cons, List.foldl_nil]
      rfl
    have hread : memGet (compactPhase m k) k = memGet m k := by
      apply ih'
      intro j hj hcon
      have := hmono j (by omega) k hcon
      omega
    intro s hs
    rw [hstep, hread]
    cases hmv : (memGet m k).moveTo with
    | none => exact ih' s (fun j hj => hs j (by omega))
    | some dd =>
      rw [memGet_set]
      have hds : ¬ (dd = s ∧ dd < (compactPhase m k).length) := by
        intro hc
        exact hs k (by omega) (hc.1 ▸ hmv)
      rw [if_neg hds]
      exact ih' s (fun j hj => hs j (by omega))

/-- Claim C4: the reallocating `gc` stores the new frontier
(`base + liveBytes`) in `vm->next` before `updateAllObjectPointers` and
`compact` run, and both phases scan only cells below that frontier
(the first two conjuncts exhibit the pipeline with both walks bounded by
the live-cell count); consequently a live cell at index `i` at or past
the live-cell count is touched by neither phase: the pointer-update walk
leaves the cell exactly as planning left it, and the slide walk never
writes its planned destination `d`. -/
theorem c4_phases_skip_live_cells_past_new_frontier (vm : VM) (add i d : Nat)
    (hik : (calculateNewLocations (markAll vm.mem vm.stack) vm.nextIdx).2 ≤ i)
    (hin : i < vm.nextIdx)
    (hd : (memGet (calculateNewLocations (markAll vm.mem vm.stack) vm.nextIdx).1 i).moveTo
      = some d) :
    (rgc vm add).nextIdx = (calculateNewLocations (markAll vm.mem vm.stack) vm.nextIdx).2 ∧
    (rgc vm add).mem =
      compactPhase
        (updateHeapFields (calculateNewLocations (markAll vm.mem vm.stack) vm.nextIdx).1
          (calculateNewLocations (markAll vm.mem vm.stack) vm.nextIdx).2)
        (calculateNewLocations (markAll vm.mem vm.stack) vm.nextIdx).2 ∧
    memGet
        (updateHeapFields (calculateNewLocations (markAll vm.mem vm.stack) vm.nextIdx).1
          (calculateNewLocations (markAll vm.mem vm.stack) vm.nextIdx).2) i =
      memGet (calculateNewLocations (markAll vm.mem vm.stack) vm.nextIdx).1 i ∧
    memGet
        (compactPhase
          (updateHeapFields (calculateNewLocations (markAll vm.mem vm.stack) vm.nextIdx).1
            (calculateNewLocations (markAll vm.mem vm.stack) vm.nextIdx).2)
          (calculateNewLocations (markAll vm.mem vm.stack) vm.nextIdx).2) d =
      memGet
        (updateHeapFields (calculateNewLocations (markAll vm.mem vm.stack) vm.nextIdx).1
          (calculateNewLocations (markAll vm.mem vm.stack) vm.nextIdx).2) d := by
  obtain ⟨hsnd, hlen, hget⟩ := calcNewLocations_spec (markAll vm.mem vm.stack) vm.nextIdx
  obtain ⟨hulen, huhigh, humv⟩ :=
    updateHeapFields_spec (calculateNewLocations (markAll vm.mem vm.stack) vm.nextIdx).1
      (calculateNewLocations (markAll vm.mem vm.stack) vm.nextIdx).2
  have hd' : d = liveBefore (markAll vm.mem vm.stack) i ∧
      (memGet (markAll vm.mem vm.stack) i).moveTo.isSome := by
    have hi := hget i
    by_cases hc : i < vm.nextIdx ∧ (memGet (markAll vm.mem vm.stack) i).moveTo.isSome
    · rw [if_pos hc, ] at hi
      rw [hi] at hd
      simp only at hd
      exact ⟨(Option.some_inj.mp hd).symm, hc.2⟩
    · exfalso
      rw [if_neg hc] at hi
      have hns : (memGet (markAll vm.mem vm.stack) i).moveTo = none := by
        rcases hmv : (memGet (markAll vm.mem vm.stack) i).moveTo with _ | v
        · rfl
        · exact absurd ⟨hin, by rw [hmv]; rfl⟩ hc
      rw [hi, hns] at hd
      cases hd
  have hmono : ∀ j, j < (calculateNewLocations (markAll vm.mem vm.stack) vm.nextIdx).2 →
      ∀ dj, (memGet (updateHeapFields
          (calculateNewLocations (markAll vm.mem vm.stack) vm.nextIdx).1
          (calculateNewLocations (markAll vm.mem vm.stack) vm.nextIdx).2) j).moveTo = some dj →
        dj ≤ j := by
    intro j hj dj hdj
    rw [humv j] at hdj
    have hjn : j < vm.nextIdx := by
      have := liveBefore_le (markAll vm.mem vm.stack) vm.nextIdx
      omega
    have hjget := hget j
    by_cases hc : j < vm.nextIdx ∧ (memGet (markAll vm.mem vm.stack) j).moveTo.isSome
    · rw [if_pos hc] at hjget
      rw [hjget] at hdj
      simp only at hdj
      have hdj2 : liveBefore (markAll vm.mem vm.stack) j = dj := Option.some_inj.mp hdj
      have := liveBefore_le (markAll vm.mem vm.stack) j
      omega
    · exfalso
      rw [if_neg hc] at hjget
      have hns : (memGet (markAll vm.mem vm.stack) j).moveTo = none := by
        rcases hmv2 : (memGet (markAll vm.mem vm.stack) j).moveTo with _ | v
        · rfl
        · exact absurd ⟨hjn, by rw [hmv2]; rfl⟩ hc
      rw [hjget, hns] at hdj
      cases hdj
  have hnotdest : ∀ j, j < (calculateNewLocations (markAll vm.mem vm.stack) vm.nextIdx).2 →
      (memGet (updateHeapFields
          (calculateNewLocations (markAll vm.mem vm.stack) vm.nextIdx).1
          (calculateNewLocations (markAll vm.mem vm.stack) vm.nextIdx).2) j).moveTo ≠ some d := by
    intro j hj hdj
    rw [humv j] at hdj
    have hjn : j < vm.nextIdx := by
      have := liveBefore_le (markAll vm.mem vm.stack) vm.nextIdx
      omega
    have hjget := hget j
    by_cases hc : j < vm.nextIdx ∧ (memGet (markAll vm.mem vm.stack) j).moveTo.isSome
    · rw [if_pos hc] at hjget
      rw [hjget] at hdj
      simp only at hdj
      have hlt : liveBefore (markAll vm.mem vm.stack) j <
          liveBefore (markAll vm.mem vm.stack) i :=
        liveBefore_strict (markAll vm.mem vm.stack) (by omega) hc.2
      have := Option.some_inj.mp hdj
      omega
    · rw [if_neg hc] at hjget
      have hns : (memGet (markAll vm.mem vm.stack) j).moveTo = none := by
        rcases hmv2 : (memGet (markAll vm.mem vm.stack) j).moveTo with _ | v
        · rfl
        · exact absurd ⟨hjn, by rw [hmv2]; rfl⟩ hc
      rw [hjget, hns] at hdj
      cases hdj
  refine ⟨rfl, rfl, huhigh i hik, compactPhase_untouched _ _ hmono d hnotdest⟩

/-- Witness for C4 at a concrete state: one dead cell below one live
rooted cell; the live cell (index 1) sits exactly at the live-cell
count (1) with planned destination 0. -/
theorem c4_witness :
    ((calculateNewLocations (markAll [⟨.OBJ_INT, none, 5, none, none⟩,
        ⟨.OBJ_INT, none, 7, none, none⟩] [some 1]) 2).2 ≤ 1 ∧
     (1 : Nat) < 2 ∧
     (memGet (calculateNewLocations (markAll [⟨.OBJ_INT, none, 5, none, none⟩,
        ⟨.OBJ_INT, none, 7, none, none⟩] [some 1]) 2).1 1).moveTo = some 0) ∧
    (rgc ⟨[some 1], [⟨.OBJ_INT, none, 5, none, none⟩,
        ⟨.OBJ_INT, none, 7, none, none⟩], 2, 64⟩ 0).nextIdx =
      (calculateNewLocations (markAll [⟨.OBJ_INT, none, 5, none, none⟩,
        ⟨.OBJ_INT, none, 7, none, none⟩] [some 1]) 2).2 :=
  ⟨⟨by decide, by decide, by decide⟩,
   (c4_phases_skip_live_cells_past_new_frontier
     ⟨[some 1], [⟨.OBJ_INT, none, 5, none, none⟩, ⟨.OBJ_INT, none, 7, none, none⟩], 2, 64⟩
     0 1 0 (by decide) (by decide) (by decide)).1⟩

/-- Claim C7: `newObject` invokes the collector exactly when the heap
has insufficient room for one cell, and fails with OutOfMemory iff after
that collection the heap still cannot fit one cell; the reallocating
variant has no out-of-memory path at all, and after the collection it
triggers (requesting `sizeof(Object)` bytes of headroom) a cell always
fits. -/
theorem c7_alloc_invokes_gc_and_oom (vm : VM) (ty : ObjectType) :
    ((match fNewObject vm ty with
      | none => True
      | some out => out.gcRan = true) ↔ objSize * vm.nextIdx + objSize > HEAP_SIZE) ∧
    (fNewObject vm ty = none ↔
      (objSize * vm.nextIdx + objSize > HEAP_SIZE ∧
       objSize * (fgc vm).nextIdx + objSize > HEAP_SIZE)) ∧
    ((rNewObject vm ty).gcRan = true ↔ objSize * vm.nextIdx + objSize > vm.capacity) ∧
    objSize * (rgc vm objSize).nextIdx + objSize ≤ (rgc vm objSize).capacity := by
  refine ⟨?_, ?_, ?_, ?_⟩
  · by_cases h : objSize * vm.nextIdx + objSize > HEAP_SIZE
    · by_cases h2 : objSize * (fgc vm).nextIdx + objSize > HEAP_SIZE <;>
        simp [fNewObject, h, h2, allocAt]
    · simp [fNewObject, h, allocAt]
  · by_cases h : objSize * vm.nextIdx + objSize > HEAP_SIZE
    · by_cases h2 : objSize * (fgc vm).nextIdx + objSize > HEAP_SIZE <;>
        simp [fNewObject, h, h2, allocAt]
    · simp [fNewObject, h, allocAt]
  · by_cases h : objSize * vm.nextIdx + objSize > vm.capacity <;>
      simp [rNewObject, h, allocAt]
  · unfold rgc
    dsimp only
    simp only [objSize, HEAP_MIN]
    split_ifs <;> omega

/-- Claim C8: an allocation that exactly fills the heap succeeds without
triggering a collection, and the allocation immediately after it
triggers one, in both variants (in the fixed variant the follow-up
collection may then succeed or end in OutOfMemory; either way the
collector ran). -/
theorem c8_exact_fill_boundary (ty : ObjectType) (vmR vmF : VM)
    (hR : objSize * vmR.nextIdx + objSize = vmR.capacity)
    (hF : objSize * vmF.nextIdx + objSize = HEAP_SIZE) :
    ((rNewObject vmR ty).gcRan = false ∧
     (rNewObject (rNewObject vmR ty).vm ty).gcRan = true) ∧
    (∃ out, fNewObject vmF ty = some out ∧ out.gcRan = false ∧
      (fNewObject out.vm ty = none ∨
       ∃ out2, fNewObject out.vm ty = some out2 ∧ out2.gcRan = true)) := by
  have hnotR : ¬ objSize * vmR.nextIdx + objSize > vmR.capacity := by omega
  have hnotF : ¬ objSize * vmF.nextIdx + objSize > HEAP_SIZE := by omega
  refine ⟨⟨by simp [rNewObject, hnotR, allocAt], ?_⟩, ?_⟩
  · have h2 : objSize * ((rNewObject vmR ty).vm).nextIdx + objSize >
        ((rNewObject vmR ty).vm).capacity := by
      simp only [rNewObject, if_neg hnotR, allocAt]
      simp only [objSize] at hR ⊢
      omega
    generalize (rNewObject vmR ty).vm = w at h2
    simp [rNewObject, h2, allocAt]
  · refine ⟨allocAt vmF ty false, by simp [fNewObject, hnotF], rfl, ?_⟩
    have h2 : objSize * ((allocAt vmF ty false).vm).nextIdx + objSize > HEAP_SIZE := by
      simp only [allocAt]
      simp only [objSize, HEAP_SIZE] at hF ⊢
      omega
    by_cases h3 : objSize * (fgc (allocAt vmF ty false).vm).nextIdx + objSize > HEAP_SIZE
    · exact Or.inl (by simp [fNewObject, h2, h3])
    · refine Or.inr ⟨allocAt (fgc (allocAt vmF ty false).vm) ty true, ?_, rfl⟩
      simp [fNewObject, h2, h3]

/-- Witness for C8 at concrete states: a reallocating VM with room for
exactly one more cell, and a fixed VM whose frontier is one cell short
of `HEAP_SIZE`. -/
theorem c8_witness :
    (objSize * (⟨[], [], 0, 32⟩ : VM).nextIdx + objSize = (⟨[], [], 0, 32⟩ : VM).capacity ∧
     objSize * (⟨[], [], 32767, HEAP_SIZE⟩ : VM).nextIdx + objSize = HEAP_SIZE) ∧
    ((rNewObject ⟨[], [], 0, 32⟩ .OBJ_INT).gcRan = false ∧
     (rNewObject (rNewObject ⟨[], [], 0, 32⟩ .OBJ_INT).vm .OBJ_INT).gcRan = true) :=
  ⟨⟨by decide, by decide⟩,
   (c8_exact_fill_boundary .OBJ_INT ⟨[], [], 0, 32⟩ ⟨[], [], 32767, HEAP_SIZE⟩
     (by decide) (by decide)).1⟩

/-- Claim C9 (amended): `pop` on an empty root stack fails with
StackUnderflow in the reallocating variant, and in both variants a
`pop` after a successful `push` removes and returns the pushed (most
recent) entry. -/
theorem c9_pop_semantics (vm vm' : VM) (p : Option Nat) :
    (vm.stack = [] → rpop vm = none) ∧
    (push vm p = some vm' → rpop vm' = some (p, vm) ∧ fpop vm' = (p, vm)) := by
  constructor
  · intro h; simp [rpop, h]
  · intro h
    unfold push at h
    split at h
    · cases h
      refine ⟨?_, ?_⟩
      · simp [rpop, List.getLastD_concat, List.dropLast_concat]
      · simp [fpop, List.getLastD_concat, List.dropLast_concat]
    · cases h

/-- Witness for C9 at the fresh reallocating VM and the state after
pushing one reference onto it. -/
theorem c9_witness :
    ((⟨[], [], 0, HEAP_MIN⟩ : VM).stack = [] ∧
     push ⟨[], [], 0, HEAP_MIN⟩ (some 0) = some ⟨[some 0], [], 0, HEAP_MIN⟩) ∧
    rpop ⟨[], [], 0, HEAP_MIN⟩ = none ∧
    rpop ⟨[some 0], [], 0, HEAP_MIN⟩ = some (some 0, ⟨[], [], 0, HEAP_MIN⟩) ∧
    fpop ⟨[some 0], [], 0, HEAP_MIN⟩ = (some 0, ⟨[], [], 0, HEAP_MIN⟩) :=
  ⟨⟨rfl, by decide⟩,
   (c9_pop_semantics ⟨[], [], 0, HEAP_MIN⟩ ⟨[some 0], [], 0, HEAP_MIN⟩ (some 0)).1 rfl,
   ((c9_pop_semantics ⟨[], [], 0, HEAP_MIN⟩ ⟨[some 0], [], 0, HEAP_MIN⟩ (some 0)).2
     (by decide)).1,
   ((c9_pop_semantics ⟨[], [], 0, HEAP_MIN⟩ ⟨[some 0], [], 0, HEAP_MIN⟩ (some 0)).2
     (by decide)).2⟩

/-- Claim C9, counterexample to the claim as stated: in the fixed-heap
variant `pop` performs no emptiness check, so on the empty stack of a
fresh VM it returns normally (with a junk reference) instead of failing
with StackUnderflow; only the reallocating variant fails. -/
theorem c9_counterexample_fixed_pop_no_underflow :
    fpop fNewVM = (none, fNewVM) ∧ rpop rNewVM = none :=
  ⟨rfl, rfl⟩

/-- Claim C10: the reallocating collector chooses the new capacity
`max(HEAP_MIN, liveBytes * 3/2 + additionalSize)` (the double
multiplication by `HEAP_HEADROOM = 1.5` is exact because `liveBytes` is
a multiple of the cell size), so after any collection the capacity is at
least `HEAP_MIN` and at least `liveBytes + additionalSize`. -/
theorem c10_heap_sizing_policy (vm : VM) (a : Nat) :
    (rgc vm a).capacity =
      max HEAP_MIN (objSize * (rgc vm a).nextIdx * 3 / 2 + a) ∧
    HEAP_MIN ≤ (rgc vm a).capacity ∧
    objSize * (rgc vm a).nextIdx + a ≤ (rgc vm a).capacity := by
  unfold rgc
  dsimp only
  simp only [objSize, HEAP_MIN, Nat.max_def]
  refine ⟨?_, ?_, ?_⟩ <;> split_ifs <;> omega

/-- `mark(NULL)` or marking through a junk reference touches nothing. -/
theorem markF_none (f : Nat) (m : List Obj) : markF f m none = m := by
  cases f <;> rfl

/-- Marking a reference beyond the initialized heap touches nothing. -/
theorem markF_oob (f : Nat) (m : List Obj) (i : Nat) (h : m[i]? = none) :
    markF (f + 1) m (some i) = m := by
  simp [markF, h]

/-- Marking an already-marked cell returns immediately: this is the
early return that prevents recursion on cycles. -/
theorem markF_marked (f : Nat) (m : List Obj) (i : Nat) (o : Obj)
    (h : m[i]? = some o) (hs : o.moveTo.isSome) :
    markF (f + 1) m (some i) = m := by
  simp [markF, h, hs]

/-- Marking an unmarked int sets its forwarding slot to its own
address. -/
theorem markF_int (f : Nat) (m : List Obj) (i : Nat) (o : Obj)
    (h : m[i]? = some o) (hs : o.moveTo = none) (hty : o.ty = .OBJ_INT) :
    markF (f + 1) m (some i) = m.set i { o with moveTo := some i } := by
  simp [markF, h, hs, hty]

/-- Marking an unmarked pair sets its forwarding slot and recurses on
`head`, then `tail`. -/
theorem markF_pair (f : Nat) (m : List Obj) (i : Nat) (o : Obj)
    (h : m[i]? = some o) (hs : o.moveTo = none) (hty : o.ty = .OBJ_PAIR) :
    markF (f + 1) m (some i) =
      markF f (markF f (m.set i { o with moveTo := some i }) o.head) o.tail := by
  simp [markF, h, hs, hty]

/-- `MarkExt` is reflexive. -/
theorem markExt_refl (m : List Obj) : MarkExt m m := fun _ => Or.inl rfl

/-- `MarkExt` is transitive. -/
theorem markExt_trans {m m' m'' : List Obj} (h1 : MarkExt m m') (h2 : MarkExt m' m'') :
    MarkExt m m'' := by
  intro j
  rcases h2 j with h | ⟨o, ho, hn, he⟩
  · rcases h1 j with h' | ⟨o, ho, hn, he⟩
    · exact Or.inl (h.trans h')
    · exact Or.inr ⟨o, ho, hn, h.trans he⟩
  · rcases h1 j with h' | ⟨o2, ho2, hn2, he2⟩
    · exact Or.inr ⟨o, h'.symm.trans ho, hn, he⟩
    · rw [he2] at ho
      injection ho with ho
      rw [← ho] at hn
      simp at hn

/-- Setting an unmarked cell's forwarding slot to its own address is a
`MarkExt` step. -/
theorem markExt_set {m : List Obj} {i : Nat} {o : Obj}
    (h : m[i]? = some o) (hn : o.moveTo = none) :
    MarkExt m (m.set i { o with moveTo := some i }) := by
  intro j
  by_cases hij : i = j
  · subst hij
    refine Or.inr ⟨o, h, hn, ?_⟩
    obtain ⟨hlt, _⟩ := List.getElem?_eq_some.mp h
    exact List.getElem?_set_eq_of_lt _ hlt
  · exact Or.inl (List.getElem?_set_ne hij)

/-- `mark` only turns `NULL` forwarding slots into self-addresses. -/
theorem markF_markExt : ∀ (f : Nat) (m : List Obj) (r : Option Nat),
    MarkExt m (markF f m r) := by
  intro f
  induction f with
  | zero => intro m r; exact markExt_refl m
  | succ f ih =>
    intro m r
    cases r with
    | none => rw [markF_none]; exact markExt_refl m
    | some i =>
      cases hmi : m[i]? with
      | none => rw [markF_oob f m i hmi]; exact markExt_refl m
      | some o =>
        cases hs : o.moveTo with
        | some v =>
          rw [markF_marked f m i o hmi (by simp [hs])]
          exact markExt_refl m
        | none =>
          cases hty : o.ty with
          | OBJ_INT => rw [markF_int f m i o hmi hs hty]; exact markExt_set hmi hs
          | OBJ_PAIR =>
            rw [markF_pair f m i o hmi hs hty]
            exact markExt_trans (markExt_trans (markExt_set hmi hs) (ih _ _)) (ih _ _)

/-- Marking one unmarked cell lowers the unmarked count by one. -/
theorem unmarkedCount_set {m : List Obj} {i : Nat} {o : Obj}
    (h : m[i]? = some o) (hn : o.moveTo = none) :
    unmarkedCount (m.set i { o with moveTo := some i }) + 1 = unmarkedCount m := by
  obtain ⟨hlt, hge⟩ := List.getElem?_eq_some.mp h
  unfold unmarkedCount
  rw [List.countP_set _ _ _ _ hlt]
  have hpos : 0 < List.countP (fun o : Obj => o.moveTo.isNone) m :=
    List.countP_pos_iff.mpr ⟨o, hge ▸ List.getElem_mem hlt, by rw [hn]; rfl⟩
  simp only [hge, hn]
  simp
  omega

/-- `mark` never increases the unmarked count. -/
theorem markF_unmarked_le : ∀ (f : Nat) (m : List Obj) (r : Option Nat),
    unmarkedCount (markF f m r) ≤ unmarkedCount m := by
  intro f
  induction f with
  | zero => intro m r; exact le_rfl
  | succ f ih =>
    intro m r
    cases r with
    | none => rw [markF_none]
    | some i =>
      cases hmi : m[i]? with
      | none => rw [markF_oob f m i hmi]
      | some o =>
        cases hs : o.moveTo with
        | some v => rw [markF_marked f m i o hmi (by simp [hs])]
        | none =>
          cases hty : o.ty with
          | OBJ_INT =>
            rw [markF_int f m i o hmi hs hty]
            have := unmarkedCount_set hmi hs
            omega
          | OBJ_PAIR =>
            rw [markF_pair f m i o hmi hs hty]
            have h1 := unmarkedCount_set hmi hs
            have h2 := ih (m.set i { o with moveTo := some i }) o.head
            have h3 := ih (markF f (m.set i { o with moveTo := some i }) o.head) o.tail
            omega

/-- Termination of `mark`: any fuel beyond the number of unmarked cells
yields the same result, so the fueled recursion has already reached its
fixed point. -/
theorem markF_fuel_eq : ∀ (n : Nat) (m : List Obj) (r : Option Nat) (f g : Nat),
    unmarkedCount m = n → n < f → n < g → markF f m r = markF g m r := by
  intro n
  induction n using Nat.strong_induction_on with
  | _ n ih =>
    intro m r f g hn hf hg
    obtain ⟨f', rfl⟩ : ∃ f', f = f' + 1 := ⟨f - 1, by omega⟩
    obtain ⟨g', rfl⟩ : ∃ g', g = g' + 1 := ⟨g - 1, by omega⟩
    cases r with
    | none => rw [markF_none, markF_none]
    | some i =>
      cases hmi : m[i]? with
      | none => rw [markF_oob _ _ _ hmi, markF_oob _ _ _ hmi]
      | some o =>
        cases hs : o.moveTo with
        | some v =>
          rw [markF_marked _ _ _ _ hmi (by simp [hs]),
            markF_marked _ _ _ _ hmi (by simp [hs])]
        | none =>
          cases hty : o.ty with
          | OBJ_INT => rw [markF_int _ _ _ _ hmi hs hty, markF_int _ _ _ _ hmi hs hty]
          | OBJ_PAIR =>
            rw [markF_pair _ _ _ _ hmi hs hty, markF_pair _ _ _ _ hmi hs hty]
            have hdec := unmarkedCount_set hmi hs
            have hh : markF f' (m.set i { o with moveTo := some i }) o.head =
                markF g' (m.set i { o with moveTo := some i }) o.head :=
              ih (n - 1) (by omega) _ _ _ _ (by omega) (by omega) (by omega)
            rw [hh]
            have hM := markF_unmarked_le g' (m.set i { o with moveTo := some i }) o.head
            exact ih (unmarkedCount (markF g' (m.set i { o with moveTo := some i }) o.head))
              (by omega) _ _ _ _ rfl (by omega) (by omega)

/-- `mark` equals the fueled recursion at any sufficient fuel. -/
theorem mark_eq_markF (m : List Obj) (r : Option Nat) (f : Nat)
    (hf : unmarkedCount m < f) : mark m r = markF f m r :=
  markF_fuel_eq (unmarkedCount m) m r _ f rfl (Nat.lt_succ_self _) hf

/-- The start of a `ReachU` path is unmarked. -/
theorem reachU_start_unmarked {mem : List Obj} {a k : Nat} (h : ReachU mem a k) :
    unmarkedAt mem a := by
  induction h with
  | refl hi => exact hi
  | step _ _ _ ih => exact ih

/-- The target of a `ReachU` path is unmarked. -/
theorem reachU_target_unmarked {mem : List Obj} {a k : Nat} (h : ReachU mem a k) :
    unmarkedAt mem k := by
  cases h with
  | refl hi => exact hi
  | step h1 h2 h3 => exact h3

/-- A cell cannot be both unmarked and marked. -/
theorem not_marked_of_unmarked {mem : List Obj} {j : Nat}
    (h : unmarkedAt mem j) : ¬ markedAt mem j := by
  rintro ⟨o2, ho2, hs⟩
  obtain ⟨o, ho, hn⟩ := h
  rw [ho] at ho2
  injection ho2 with ho2
  rw [← ho2, hn] at hs
  simp at hs

/-- An existing cell that is not marked is unmarked. -/
theorem unmarked_of_not_marked {mem : List Obj} {j : Nat} (hlt : j < mem.length)
    (h : ¬ markedAt mem j) : unmarkedAt mem j := by
  have hj : mem[j]? = some mem[j] := List.getElem?_eq_getElem hlt
  cases hmo : mem[j].moveTo with
  | none => exact ⟨mem[j], hj, hmo⟩
  | some v => exact absurd ⟨mem[j], hj, by rw [hmo]; rfl⟩ h

/-- A marked cell lies inside the heap. -/
theorem markedAt_lt {mem : List Obj} {j : Nat} (h : markedAt mem j) : j < mem.length := by
  obtain ⟨o, ho, _⟩ := h
  exact (List.getElem?_eq_some.mp ho).1

/-- Marking preserves markedness. -/
theorem markExt_marked_mono {m m' : List Obj} (h : MarkExt m m') {j : Nat}
    (hm : markedAt m j) : markedAt m' j := by
  obtain ⟨o, ho, hs⟩ := hm
  rcases h j with he | ⟨o2, ho2, hn2, he2⟩
  · exact ⟨o, he.trans ho, hs⟩
  · exact ⟨_, he2, rfl⟩

/-- A cell unmarked after marking was already unmarked before. -/
theorem markExt_unmarked_back {m m' : List Obj} (h : MarkExt m m') {j : Nat}
    (hu : unmarkedAt m' j) : unmarkedAt m j := by
  obtain ⟨o, ho, hn⟩ := hu
  rcases h j with he | ⟨o2, ho2, hn2, he2⟩
  · exact ⟨o, he.symm.trans ho, hn⟩
  · rw [he2] at ho
    injection ho with ho
    rw [← ho] at hn
    simp at hn

/-- Marking changes no pair field, so the edge relation is unchanged. -/
theorem markExt_edge_iff {m m' : List Obj} (h : MarkExt m m') {j k : Nat} :
    Edge m' j k ↔ Edge m j k := by
  constructor
  · rintro ⟨o, ho, hty, hf⟩
    rcases h j with he | ⟨o2, ho2, hn2, he2⟩
    · exact ⟨o, he.symm.trans ho, hty, hf⟩
    · rw [he2] at ho
      injection ho with ho
      subst ho
      exact ⟨o2, ho2, hty, hf⟩
  · rintro ⟨o, ho, hty, hf⟩
    rcases h j with he | ⟨o2, ho2, hn2, he2⟩
    · exact ⟨o, he.trans ho, hty, hf⟩
    · rw [ho2] at ho
      injection ho with ho
      subst ho
      exact ⟨_, he2, hty, hf⟩

/-- An unmarked path in the marked heap was an unmarked path before. -/
theorem reachU_markExt {m m' : List Obj} (h : MarkExt m m') {a j : Nat}
    (hr : ReachU m' a j) : ReachU m a j := by
  induction hr with
  | refl hi => exact ReachU.refl _ (markExt_unmarked_back h hi)
  | step h1 h2 h3 ih =>
      exact ReachU.step ih ((markExt_edge_iff h).mp h2) (markExt_unmarked_back h h3)

/-- Prepend an edge from an unmarked cell to an unmarked path. -/
theorem reachU_prepend {m : List Obj} {i a j : Nat}
    (hi : unmarkedAt m i) (he : Edge m i a) (hr : ReachU m a j) : ReachU m i j := by
  induction hr with
  | refl hb => exact ReachU.step (ReachU.refl i hi) he hb
  | step h1 h2 h3 ih => exact ReachU.step ih h2 h3

/-- Unmarked paths are in particular plain paths. -/
theorem reachU_rtg {m : List Obj} {a j : Nat} (h : ReachU m a j) :
    Relation.ReflTransGen (Edge m) a j := by
  induction h with
  | refl _ => exact Relation.ReflTransGen.refl
  | step h1 h2 h3 ih => exact ih.tail h2

/-- From an int cell no unmarked path leaves. -/
theorem reachU_int_eq {m : List Obj} {i j : Nat} {o : Obj}
    (h : m[i]? = some o) (hty : o.ty = .OBJ_INT) (hr : ReachU m i j) : j = i := by
  induction hr with
  | refl _ => rfl
  | step h1 h2 h3 ih =>
      subst ih
      obtain ⟨o2, ho2, hty2, _⟩ := h2
      rw [h] at ho2
      injection ho2 with ho2
      subst ho2
      rw [hty] at hty2
      cases hty2

/-- Markedness after setting one cell's forwarding slot. -/
theorem markedAt_set_iff {m : List Obj} {i : Nat} {o : Obj}
    (h : m[i]? = some o) :
    ∀ j, markedAt (m.set i { o with moveTo := some i }) j ↔ j = i ∨ markedAt m j := by
  intro j
  obtain ⟨hlt, _⟩ := List.getElem?_eq_some.mp h
  by_cases hij : j = i
  · subst hij
    constructor
    · intro _; exact Or.inl rfl
    · intro _; exact ⟨_, List.getElem?_set_eq_of_lt _ hlt, rfl⟩
  · unfold markedAt
    rw [List.getElem?_set_ne (Ne.symm hij)]
    constructor
    · exact Or.inr
    · rintro (he | hm)
      · exact absurd he hij
      · exact hm

/-- An unmarked cell other than `i` stays unmarked after marking `i`. -/
theorem unmarkedAt_set_ne {m : List Obj} {i k : Nat} {x : Obj} (hik : i ≠ k)
    (h : unmarkedAt m k) : unmarkedAt (m.set i x) k := by
  obtain ⟨o, ho, hn⟩ := h
  exact ⟨o, (List.getElem?_set_ne hik).trans ho, hn⟩

/-- A reusable eliminator for `ReachU` derivations. -/
theorem reachU_ind {mem : List Obj} {P : Nat → Nat → Prop}
    (hrefl : ∀ i, unmarkedAt mem i → P i i)
    (hstep : ∀ a j k, ReachU mem a j → P a j → Edge mem j k → unmarkedAt mem k → P a k) :
    ∀ {a k : Nat}, ReachU mem a k → P a k := by
  intro a k h
  induction h with
  | refl h1 => exact hrefl _ h1
  | step h1 h2 h3 ih => exact hstep _ _ _ h1 ih h2 h3

/-- Decomposition of the unmarked paths out of an unmarked pair `i`:
they reach `i` itself, or continue through one of its two fields in the
heap where `i` has been marked. -/
theorem reachU_decomp {m : List Obj} {i : Nat} {o : Obj}
    (h : m[i]? = some o) (hn : o.moveTo = none) (hty : o.ty = .OBJ_PAIR) :
    ∀ j, ReachU m i j ↔
      j = i ∨ ∃ a, (o.head = some a ∨ o.tail = some a) ∧
        ReachU (m.set i { o with moveTo := some i }) a j := by
  have hext : MarkExt m (m.set i { o with moveTo := some i }) := markExt_set h hn
  intro j
  constructor
  · intro hr
    refine @reachU_ind m
      (fun a j2 => a = i →
        j2 = i ∨ ∃ a2, (o.head = some a2 ∨ o.tail = some a2) ∧
          ReachU (m.set i { o with moveTo := some i }) a2 j2)
      (fun c _ he => Or.inl he) ?_ i j hr rfl
    intro a j' k h1 ihj h2 h3 he
    rcases ihj he with heq | ⟨a2, ha2, hra⟩
    · rw [heq] at h2
      obtain ⟨o2, ho2, hty2, hf2⟩ := h2
      rw [h] at ho2
      injection ho2 with ho2
      subst ho2
      by_cases hki : k = i
      · exact Or.inl hki
      · exact Or.inr ⟨k, hf2, ReachU.refl k (unmarkedAt_set_ne (fun he2 => hki he2.symm) h3)⟩
    · by_cases hki : k = i
      · exact Or.inl hki
      · refine Or.inr ⟨a2, ha2, ReachU.step hra ((markExt_edge_iff hext).mpr h2) ?_⟩
        exact unmarkedAt_set_ne (fun he2 => hki he2.symm) h3
  · rintro (rfl | ⟨a, ha, hra⟩)
    · exact ReachU.refl _ ⟨o, h, hn⟩
    · exact reachU_prepend ⟨o, h, hn⟩ ⟨o, h, hty, ha⟩ (reachU_markExt hext hra)

/-- The cells marked by one call `mark(r)`: the previously marked ones
together with everything reachable from `r` through unmarked cells. -/
theorem markF_marked_iff : ∀ (n : Nat) (m : List Obj) (r : Option Nat) (f : Nat),
    unmarkedCount m = n → n < f →
    ∀ j, markedAt (markF f m r) j ↔
      markedAt m j ∨ (∃ i, r = some i ∧ ReachU m i j) := by
  intro n
  induction n using Nat.strong_induction_on with
  | _ n ih =>
    intro m r f hn hf j
    obtain ⟨f', rfl⟩ : ∃ f', f = f' + 1 := ⟨f - 1, by omega⟩
    cases r with
    | none =>
      rw [markF_none]
      simp
    | some i =>
      cases hmi : m[i]? with
      | none =>
        rw [markF_oob _ _ _ hmi]
        constructor
        · exact Or.inl
        · rintro (hm | ⟨i2, hi2, hr⟩)
          · exact hm
          · injection hi2 with hi2
            subst hi2
            obtain ⟨o, ho, _⟩ := reachU_start_unmarked hr
            rw [hmi] at ho
            cases ho
      | some o =>
        cases hs : o.moveTo with
        | some v =>
          rw [markF_marked _ _ _ _ hmi (by simp [hs])]
          constructor
          · exact Or.inl
          · rintro (hm | ⟨i2, hi2, hr⟩)
            · exact hm
            · injection hi2 with hi2
              subst hi2
              obtain ⟨o2, ho2, hn2⟩ := reachU_start_unmarked hr
              rw [hmi] at ho2
              injection ho2 with ho2
              subst ho2
              rw [hs] at hn2
              cases hn2
        | none =>
          have hdec := unmarkedCount_set hmi hs
          cases hty : o.ty with
          | OBJ_INT =>
            rw [markF_int _ _ _ _ hmi hs hty, markedAt_set_iff hmi j]
            constructor
            · rintro (rfl | hm)
              · exact Or.inr ⟨j, rfl, ReachU.refl j ⟨o, hmi, hs⟩⟩
              · exact Or.inl hm
            · rintro (hm | ⟨i2, hi2, hr⟩)
              · exact Or.inr hm
              · injection hi2 with hi2
                subst hi2
                exact Or.inl (reachU_int_eq hmi hty hr)
          | OBJ_PAIR =>
            rw [markF_pair _ _ _ _ hmi hs hty]
            have hext1 : MarkExt m (m.set i { o with moveTo := some i }) :=
              markExt_set hmi hs
            have hextM : MarkExt (m.set i { o with moveTo := some i })
                (markF f' (m.set i { o with moveTo := some i }) o.head) :=
              markF_markExt f' _ o.head
            have hn1 : 1 ≤ n := by omega
            have ih1 := ih (n - 1) (by omega) (m.set i { o with moveTo := some i })
              o.head f' (by omega) (by omega)
            have hMle := markF_unmarked_le f' (m.set i { o with moveTo := some i }) o.head
            have ihM := ih
              (unmarkedCount (markF f' (m.set i { o with moveTo := some i }) o.head))
              (by omega)
              (markF f' (m.set i { o with moveTo := some i }) o.head)
              o.tail f' rfl (by omega)
            have key : ∀ b j2,
                ReachU (m.set i { o with moveTo := some i }) b j2 →
                markedAt (markF f' (m.set i { o with moveTo := some i }) o.head) j2 ∨
                ReachU (markF f' (m.set i { o with moveTo := some i }) o.head) b j2 := by
              intro b j2 hr
              refine @reachU_ind (m.set i { o with moveTo := some i })
                (fun b2 j3 =>
                  markedAt (markF f' (m.set i { o with moveTo := some i }) o.head) j3 ∨
                  ReachU (markF f' (m.set i { o with moveTo := some i }) o.head) b2 j3)
                ?_ ?_ b j2 hr
              · intro c hc
                by_cases hMb :
                    markedAt (markF f' (m.set i { o with moveTo := some i }) o.head) c
                · exact Or.inl hMb
                · rcases hextM c with he | ⟨o2, ho2, hn2, he2⟩
                  · obtain ⟨o3, ho3, hn3⟩ := hc
                    exact Or.inr (ReachU.refl c ⟨o3, he.trans ho3, hn3⟩)
                  · exact absurd ⟨_, he2, rfl⟩ hMb
              · intro b2 j' k' h1 ihk h2 h3
                rcases ihk with hMj | hRj
                · rcases (ih1 j').mp hMj with hm1j | ⟨a2, ha2, hra⟩
                  · exact absurd hm1j (not_marked_of_unmarked (reachU_target_unmarked h1))
                  · exact Or.inl ((ih1 k').mpr (Or.inr ⟨a2, ha2, ReachU.step hra h2 h3⟩))
                · have h2M := (markExt_edge_iff hextM).mpr h2
                  by_cases hMk :
                      markedAt (markF f' (m.set i { o with moveTo := some i }) o.head) k'
                  · exact Or.inl hMk
                  · rcases hextM k' with he | ⟨o2, ho2, hn2, he2⟩
                    · obtain ⟨o3, ho3, hn3⟩ := h3
                      exact Or.inr (ReachU.step hRj h2M ⟨o3, he.trans ho3, hn3⟩)
                    · exact absurd ⟨_, he2, rfl⟩ hMk
            constructor
            · intro hres
              rcases (ihM j).mp hres with hMj | ⟨b, hb, hrb⟩
              · rcases (ih1 j).mp hMj with hm1j | ⟨a, ha, hra⟩
                · rcases (markedAt_set_iff hmi j).mp hm1j with rfl | hmj
                  · exact Or.inr ⟨j, rfl, (reachU_decomp hmi hs hty j).mpr (Or.inl rfl)⟩
                  · exact Or.inl hmj
                · exact Or.inr ⟨i, rfl,
                    (reachU_decomp hmi hs hty j).mpr (Or.inr ⟨a, Or.inl ha, hra⟩)⟩
              · exact Or.inr ⟨i, rfl, (reachU_decomp hmi hs hty j).mpr
                  (Or.inr ⟨b, Or.inr hb, reachU_markExt hextM hrb⟩)⟩
            · rintro (hmj | ⟨i2, hi2, hr⟩)
              · exact (ihM j).mpr (Or.inl ((ih1 j).mpr
                  (Or.inl ((markedAt_set_iff hmi j).mpr (Or.inr hmj)))))
              · injection hi2 with hi2
                subst hi2
                rcases (reachU_decomp hmi hs hty j).mp hr with rfl | ⟨a, ha, hra⟩
                · exact (ihM j).mpr (Or.inl ((ih1 j).mpr
                    (Or.inl ((markedAt_set_iff hmi j).mpr (Or.inl rfl)))))
                · rcases ha with ha | ha
                  · exact (ihM j).mpr (Or.inl ((ih1 j).mpr (Or.inr ⟨a, ha, hra⟩)))
                  · rcases key a j hra with hMj | hRj
                    · exact (ihM j).mpr (Or.inl hMj)
                    · exact (ihM j).mpr (Or.inr ⟨a, ha, hRj⟩)

/-- `mark` does not change the heap's length. -/
theorem markF_length : ∀ (f : Nat) (m : List Obj) (r : Option Nat),
    (markF f m r).length = m.length := by
  intro f
  induction f with
  | zero => intro m r; rfl
  | succ f ih =>
    intro m r
    cases r with
    | none => rw [markF_none]
    | some i =>
      cases hmi : m[i]? with
      | none => rw [markF_oob _ _ _ hmi]
      | some o =>
        cases hs : o.moveTo with
        | some v => rw [markF_marked _ _ _ _ hmi (by simp [hs])]
        | none =>
          cases hty : o.ty with
          | OBJ_INT => rw [markF_int _ _ _ _ hmi hs hty, List.length_set]
          | OBJ_PAIR =>
            rw [markF_pair _ _ _ _ hmi hs hty, ih, ih, List.length_set]

/-- The whole mark phase is a `MarkExt` of the initial heap. -/
theorem markAll_markExt (mem : List Obj) (roots : List (Option Nat)) :
    MarkExt mem (markAll mem roots) := by
  suffices h : ∀ (rs : List (Option Nat)) (m0 : List Obj),
      MarkExt mem m0 → MarkExt mem (rs.foldl mark m0) from
    h roots mem (markExt_refl mem)
  intro rs
  induction rs with
  | nil => intro m0 h0; exact h0
  | cons p ps ih =>
    intro m0 h0
    rw [List.foldl_cons]
    exact ih (mark m0 p) (markExt_trans h0 (markF_markExt _ m0 p))

/-- The marked set of the whole mark phase, computed by folding `mark`
over the roots left to right: starting from a heap whose marked set is
`S` (closed under edges of the original heap), the result's marked set
adds exactly the cells plainly reachable from the processed roots. -/
theorem foldl_mark_marked_iff (mem : List Obj) (hfw : FieldsWF mem) :
    ∀ (rs : List (Option Nat)) (m0 : List Obj) (S : Nat → Prop),
      RootsWF mem rs →
      MarkExt mem m0 →
      m0.length = mem.length →
      (∀ j, markedAt m0 j ↔ S j) →
      (∀ j k, S j → Edge mem j k → S k) →
      ∀ j, markedAt (rs.foldl mark m0) j ↔
        (S j ∨ ∃ a, some a ∈ rs ∧ Relation.ReflTransGen (Edge mem) a j) := by
  intro rs
  induction rs with
  | nil =>
    intro m0 S hroots hext hlen hiff hcl j
    rw [List.foldl_nil, hiff j]
    simp
  | cons p ps ih =>
    intro m0 S hroots hext hlen hiff hcl j
    rw [List.foldl_cons]
    have hextp : MarkExt m0 (mark m0 p) := markF_markExt _ m0 p
    have hext1 : MarkExt mem (mark m0 p) := markExt_trans hext hextp
    have hlen1 : (mark m0 p).length = mem.length := by
      rw [mark, markF_length, hlen]
    have hchar := markF_marked_iff (unmarkedCount m0) m0 p
      (unmarkedCount m0 + 1) rfl (Nat.lt_succ_self _)
    have haux : ∀ (a : Nat), p = some a →
        ∀ j2, Relation.ReflTransGen (Edge mem) a j2 →
        markedAt m0 j2 ∨ ReachU m0 a j2 := by
      intro a hpa j2 hr
      have ha_lt : a < mem.length := by
        have := hroots p (List.mem_cons_self p ps)
        rw [hpa] at this
        exact this
      induction hr with
      | refl =>
        by_cases hm : markedAt m0 a
        · exact Or.inl hm
        · exact Or.inr (ReachU.refl _ (unmarked_of_not_marked (by rw [hlen]; exact ha_lt) hm))
      | tail hstep hedge ihj =>
        rename_i b2 c2
        rcases ihj with hm | hru
        · exact Or.inl ((hiff c2).mpr (hcl b2 c2 ((hiff b2).mp hm) hedge))
        · have hedge0 : Edge m0 b2 c2 := (markExt_edge_iff hext).mpr hedge
          by_cases hm : markedAt m0 c2
          · exact Or.inl hm
          · have hc2 : c2 < mem.length := by
              obtain ⟨o, ho, hty, hf⟩ := hedge
              obtain ⟨hblt, hbeq⟩ := List.getElem?_eq_some.mp ho
              have hmem : o ∈ mem := hbeq ▸ List.getElem_mem hblt
              obtain ⟨hh, ht⟩ := hfw o hmem hty
              rcases hf with hf | hf
              · rw [hf] at hh; exact hh
              · rw [hf] at ht; exact ht
            exact Or.inr (ReachU.step hru hedge0
              (unmarked_of_not_marked (by rw [hlen]; exact hc2) hm))
    have hiff1 : ∀ j2, markedAt (mark m0 p) j2 ↔
        (S j2 ∨ ∃ a, p = some a ∧ Relation.ReflTransGen (Edge mem) a j2) := by
      intro j2
      rw [mark, hchar j2]
      constructor
      · rintro (hm | ⟨a, hpa, hru⟩)
        · exact Or.inl ((hiff j2).mp hm)
        · refine Or.inr ⟨a, hpa, ?_⟩
          exact (Relation.ReflTransGen.mono (fun x y he => (markExt_edge_iff hext).mp he))
            (reachU_rtg hru)
      · rintro (hS | ⟨a, hpa, hr⟩)
        · exact Or.inl ((hiff j2).mpr hS)
        · rcases haux a hpa j2 hr with hm | hru
          · exact Or.inl hm
          · exact Or.inr ⟨a, hpa, hru⟩
    have hcl1 : ∀ j2 k, (S j2 ∨ ∃ a, p = some a ∧ Relation.ReflTransGen (Edge mem) a j2) →
        Edge mem j2 k →
        (S k ∨ ∃ a, p = some a ∧ Relation.ReflTransGen (Edge mem) a k) := by
      rintro j2 k (hS | ⟨a, hpa, hr⟩) he
      · exact Or.inl (hcl j2 k hS he)
      · exact Or.inr ⟨a, hpa, hr.tail he⟩
    have hroots1 : RootsWF mem ps := fun q hq => hroots q (List.mem_cons_of_mem p hq)
    rw [ih (mark m0 p) _ hroots1 hext1 hlen1 hiff1 hcl1 j]
    constructor
    · rintro ((hS | ⟨a, hpa, hr⟩) | ⟨a, ha, hr⟩)
      · exact Or.inl hS
      · exact Or.inr ⟨a, by rw [hpa]; exact List.mem_cons_self _ _, hr⟩
      · exact Or.inr ⟨a, List.mem_cons_of_mem p ha, hr⟩
    · rintro (hS | ⟨a, ha, hr⟩)
      · exact Or.inl (Or.inl hS)
      · rcases List.mem_cons.mp ha with he | ha2
        · exact Or.inl (Or.inr ⟨a, he.symm, hr⟩)
        · exact Or.inr ⟨a, ha2, hr⟩

/-- Claim C5: for every well-formed object graph (roots and pair fields
referencing heap cells) whose forwarding slots are all clear, the mark
phase terminates — the fueled recursion is independent of the fuel once
it exceeds the number of unmarked cells, which only shrinks — and marks
exactly the cells reachable from the root stack, writing each exactly
once (each reachable cell ends with its own address in its forwarding
slot and is otherwise unchanged, unreachable cells are untouched); a
cell whose forwarding slot is already non-NULL is returned from without
recursing into its fields. -/
theorem c5_mark_terminates_and_marks_reachable_once
    (mem : List Obj) (roots : List (Option Nat))
    (hclean : ∀ o ∈ mem, o.moveTo = none)
    (hroots : RootsWF mem roots)
    (hfw : FieldsWF mem) :
    (∀ (m : List Obj) (r : Option Nat) (f g : Nat),
       unmarkedCount m < f → unmarkedCount m < g → markF f m r = markF g m r) ∧
    (∀ (m : List Obj) (i : Nat) (o : Obj), m[i]? = some o → o.moveTo.isSome →
       mark m (some i) = m) ∧
    (∀ j, markedAt (markAll mem roots) j ↔ RootReach mem roots j) ∧
    (∀ j, RootReach mem roots j →
       (markAll mem roots)[j]? = (mem[j]?).map (fun o => { o with moveTo := some j })) ∧
    (∀ j, ¬ RootReach mem roots j → (markAll mem roots)[j]? = mem[j]?) := by
  have hiff0 : ∀ j, markedAt mem j ↔ False := by
    intro j
    simp only [iff_false]
    rintro ⟨o, ho, hs⟩
    obtain ⟨hlt, heq⟩ := List.getElem?_eq_some.mp ho
    have hmem : o ∈ mem := heq ▸ List.getElem_mem hlt
    rw [hclean o hmem] at hs
    simp at hs
  have hmain := foldl_mark_marked_iff mem hfw roots mem (fun _ => False) hroots
    (markExt_refl mem) rfl hiff0 (fun j k hj _ => hj)
  have hmarked : ∀ j, markedAt (markAll mem roots) j ↔ RootReach mem roots j := by
    intro j
    unfold markAll
    rw [hmain j]
    unfold RootReach
    simp
  refine ⟨?_, ?_, hmarked, ?_, ?_⟩
  · intro m r f g hf hg
    exact markF_fuel_eq (unmarkedCount m) m r f g rfl hf hg
  · intro m i o ho hs
    exact markF_marked _ _ _ _ ho hs
  · intro j hrr
    have hm := (hmarked j).mpr hrr
    rcases markAll_markExt mem roots j with he | ⟨o, ho, hn, he⟩
    · exfalso
      obtain ⟨o, ho2, hs⟩ := hm
      rw [he] at ho2
      exact (hiff0 j).mp ⟨o, ho2, hs⟩
    · rw [he, ho]
      rfl
  · intro j hnr
    rcases markAll_markExt mem roots j with he | ⟨o, ho, hn, he⟩
    · exact he
    · exact absurd ((hmarked j).mp ⟨_, he, rfl⟩) hnr

/-- Witness for C5 at a two-cell cyclic graph: a rooted pair whose
fields reference the int next to it and the pair itself. -/
theorem c5_witness :
    ((∀ o ∈ [(⟨.OBJ_PAIR, none, 0, some 1, some 0⟩ : Obj),
        ⟨.OBJ_INT, none, 7, none, none⟩], o.moveTo = none) ∧
     RootsWF [⟨.OBJ_PAIR, none, 0, some 1, some 0⟩,
        ⟨.OBJ_INT, none, 7, none, none⟩] [some 0] ∧
     FieldsWF [⟨.OBJ_PAIR, none, 0, some 1, some 0⟩,
        ⟨.OBJ_INT, none, 7, none, none⟩]) ∧
    (∀ j, markedAt (markAll [⟨.OBJ_PAIR, none, 0, some 1, some 0⟩,
        ⟨.OBJ_INT, none, 7, none, none⟩] [some 0]) j ↔
      RootReach [⟨.OBJ_PAIR, none, 0, some 1, some 0⟩,
        ⟨.OBJ_INT, none, 7, none, none⟩] [some 0] j) :=
  ⟨⟨by decide, by unfold RootsWF; decide, by unfold FieldsWF; decide⟩,
   (c5_mark_terminates_and_marks_reachable_once
     [⟨.OBJ_PAIR, none, 0, some 1, some 0⟩, ⟨.OBJ_INT, none, 7, none, none⟩]
     [some 0] (by decide) (by unfold RootsWF; decide) (by unfold FieldsWF; decide)).2.2.1⟩

/-- Claim C1: evaluation of the reallocating collector at the failing
mutator state reached by `c1ops`.  At the moment the final collection
begins, exactly 9 distinct cells are reachable from the root stack, yet
after the collection `liveCount = (next - heap)/sizeof(Object)` is 10:
a stale forwarding slot left inside the live region by the earlier
(allocation-triggered) collection is counted as live. -/
theorem c1_live_count_differs_from_reachable :
    (rrun c1ops).map (fun vm => ((rgc vm 0).nextIdx, reachableCount vm)) =
      some (10, 9) := by
  rfl

/-- Claim C2: evaluation of the reallocating collector at the failing
mutator state reached by `c2ops`.  After the final collection the live
region holds 31 cells; the cell at index 26 is a pair (both before and
after the collection, with unchanged fields) whose `head` references
cell 24, and cell 24's type tag changes from `OBJ_INT` before the
collection to `OBJ_PAIR` after it — the referenced cell's tag is not
preserved. -/
theorem c2_pair_target_tag_not_preserved :
    (rrun c2ops).map (fun vm =>
      let vm' := rgc vm 0
      (vm'.nextIdx, (memGet vm'.mem 26).ty, (memGet vm'.mem 26).head,
       (memGet vm.mem 26).ty, (memGet vm.mem 26).head,
       (memGet vm.mem 24).ty, (memGet vm'.mem 24).ty)) =
      some (31, .OBJ_PAIR, some 24, .OBJ_PAIR, some 24, .OBJ_INT, .OBJ_PAIR) := by
  rfl

/-- Claim C3: evaluation of the reallocating collector at the failing
mutator state reached by `c3ops`.  After the collection the frontier is
at cell 9, yet the surviving cell at index 8 still has forwarding slot
`some 7` (the address `heap + 7 * sizeof(Object)`), not `NULL`. -/
theorem c3_surviving_cell_keeps_forwarding_slot :
    (rrun c3ops).map (fun vm =>
      let vm' := rgc vm 0
      (vm'.nextIdx, (memGet vm'.mem 8).moveTo)) =
      some (9, some 7) := by
  rfl

/-- Claim C6: evaluation of two consecutive collections (no mutator
activity in between) from the state reached by `c6ops`.  The first
collection reports 3 live cells, the second only 1 — and the single
root is relocated from offset 2 to offset 0 — so the second collection
is not a no-op. -/
theorem c6_second_gc_not_noop :
    (rrun c6ops).map (fun vm =>
      let g1 := rgc vm 0
      let g2 := rgc g1 0
      (g1.nextIdx, g2.nextIdx, g1.stack, g2.stack)) =
      some (3, 1, [some 2], [some 0]) := by
  rfl

end Lisp2
